import Mathlib

/-!
# Verification of the tzgrep traversal core

A shallow embedding of `src/tzgrep.go`: container classification by name
suffix (`newDecompressor`), the recursive streaming descent (`find`), the
per-root entry point (`findPath`), and the dispatcher / channel-close
protocol (`Start`).

Streams are modelled by the observations the code makes of them: a node's
content either fails the decompression transform, or yields a sequence of
tar items (entries, each with its own nested content) terminated by
end-of-stream or by a read error.  The matcher is an abstract predicate on
names, as the spec treats pattern matching as a black box.

The Go code's control flow is mirrored faithfully, including the two
missing-`return` paths: after emitting a transform-failure Result, `find`
goes on to build a tar reader over the failed transform's nil reader
(a runtime panic, modelled by the `panicked` flag), and after emitting an
open-failure Result, `findPath` goes on to call `find` on the nil file
handle (whose reads yield `os.ErrInvalid`).
-/

namespace TZgrep

/-- Errors are opaque values; only identity matters to the model. -/
abbrev Err := String

/-- Results mirror the Go struct: `Err = none` is a match,
`Err = some e` is a failure at that chain. -/
structure Result where
  Path : List String
  Err : Option Err
deriving DecidableEq, Repr

/-- The decompression transform kinds selected by `newDecompressor`.
`ident` is the no-op transform used for plain `.tar`. -/
inductive Transform where
  | ident
  | gzip
  | bzip2
  | xz
  | zstd
deriving DecidableEq, Repr

/-- Go `strings.ToLower`, as a character-wise map.  Lean's `Char.toLower`
lowercases ASCII letters only; since every suffix in the classifier's table
is ASCII and no non-ASCII character can become ASCII under either lowering,
this agrees with Go's lowering as far as suffix matching is concerned. -/
def toLower (s : String) : String :=
  ⟨s.toList.map Char.toLower⟩

/-- Go `strings.HasSuffix`, on character lists. -/
def hasSuffix (s suf : String) : Bool :=
  suf.toList.isSuffixOf s.toList

/-- Go `hasSuffixes(s, suffixes...)`: true iff some suffix matches. -/
def hasSuffixes (s : String) (suffixes : List String) : Bool :=
  suffixes.any (fun suf => hasSuffix s suf)

/-- Go `newDecompressor`: case-insensitive, table-driven suffix switch.
Returns `some t` when the name denotes a tar-family container needing
transform `t` (Go's `(zf, true)`), `none` otherwise (Go's `(nil, false)`). -/
def newDecompressor (path : String) : Option Transform :=
  let p := toLower path
  if hasSuffixes p [".tar"] then some Transform.ident
  else if hasSuffixes p [".tar.gz", ".tgz", ".taz"] then some Transform.gzip
  else if hasSuffixes p [".tar.bz2", ".tar.bz", ".tbz", ".tbz2", ".tz2", ".tb2"] then
    some Transform.bzip2
  else if hasSuffixes p [".tar.xz", ".txz"] then some Transform.xz
  else if hasSuffixes p [".tar.zst", ".tzst", ".tar.zstd"] then some Transform.zstd
  else none

/-- The full table of suffixes `newDecompressor` recognises. -/
def allTarSuffixes : List String :=
  [".tar", ".tar.gz", ".tgz", ".taz", ".tar.bz2", ".tar.bz", ".tbz", ".tbz2",
   ".tz2", ".tb2", ".tar.xz", ".txz", ".tar.zst", ".tzst", ".tar.zstd"]

mutual
/-- What a node's byte stream yields when the code processes it:
either applying the selected transform fails (`gzip.NewReader` error, or
an external decompressor that fails to start), or the transform succeeds
and the tar reader over the result yields `items`. -/
inductive NodeContent : Type where
  | failTransform (e : Err) : NodeContent
  | tarStream (items : TarItems) : NodeContent

/-- The sequence of observations from iterated `tr.Next()` calls:
end-of-stream (`nil`), a read error (`readErr`, with whatever unreachable
items would lie beyond it), or a valid entry header with the entry's name
and nested content. -/
inductive TarItems : Type where
  | nil : TarItems
  | readErr (e : Err) (rest : TarItems) : TarItems
  | entry (name : String) (c : NodeContent) (rest : TarItems) : TarItems
end

/-- Go `path[len(path)-1]`; chains are nonempty whenever this is reached. -/
def lastName (path : List String) : String :=
  path.getLastD ""

/-- The observable effect of one descent: the Results sent on the channel in
order, the visit log (each chain `find` was invoked on, paired with its
recursion depth relative to this call), and whether the descent ended in a
runtime panic. -/
structure Trav where
  out : List Result
  visited : List (List String × Nat)
  panicked : Bool
deriving DecidableEq, Repr

/-- Shift the recursion depths in a visit log by one level. -/
def deeper (v : List (List String × Nat)) : List (List String × Nat) :=
  v.map (fun p => (p.1, p.2 + 1))

mutual
/-- Go `TZgrep.find`: check the terminal name against the matcher, classify
it, and if it is a container iterate its tar entries, recursing with the
chain extended by each entry's name.  After a transform failure the Go code
emits the failure Result but (missing `return`) still builds a tar reader
over the failed transform's nil reader; the first read is a nil

dereference, modelled by `panicked := true`. -/
def find (m : String → Bool) (c : NodeContent) (path : List String) : Trav :=
  let matched : List Result := if m (lastName path) then [⟨path, none⟩] else []
  match newDecompressor (lastName path) with
  | none => ⟨matched, [(path, 0)], false⟩
  | some _ =>
    match c with
    | NodeContent.failTransform e =>
        ⟨matched ++ [⟨path, some e⟩], [(path, 0)], true⟩
    | NodeContent.tarStream items =>
        let t := findItems m items path
        ⟨matched ++ t.out, (path, 0) :: deeper t.visited, t.panicked⟩
termination_by structural c

/-- The tar-entry loop of `TZgrep.find`: on a valid header recurse with the
extended chain; on a read error emit one failure Result tagged with the
container's chain and break; on end-of-stream stop silently.  A panic in a
child aborts the loop (the goroutine dies). -/
def findItems (m : String → Bool) (items : TarItems) (path : List String) : Trav :=
  match items with
  | TarItems.nil => ⟨[], [], false⟩
  | TarItems.readErr e _ => ⟨[⟨path, some e⟩], [], false⟩
  | TarItems.entry n c rest =>
      let t := find m c (path ++ [n])
      if t.panicked then t
      else
        let t' := findItems m rest path
        ⟨t.out ++ t'.out, t.visited ++ t'.visited, t'.panicked⟩
termination_by structural items
end

/-- What opening a root path yields: either the file opens (`openOk`), or
`os.Open` fails (`openFails`).  In the failure case the Go code still calls
`find` on the nil `*os.File`; `brokenView` is what that descent observes
(reads on a nil file return `os.ErrInvalid`, see `nilFileContent`). -/
inductive RootContent : Type where
  | openOk (c : NodeContent) : RootContent
  | openFails (e : Err) (brokenView : NodeContent) : RootContent

/-- The error `os.ErrInvalid`, returned by reads on a nil `*os.File`. -/
def errInvalid : Err := "invalid argument"

/-- What a descent observes when reading a nil `*os.File` through the no-op
`.tar` transform: the transform succeeds, and the tar reader's first `Next`
fails with `os.ErrInvalid` (not `io.EOF`). -/
def nilFileContent : NodeContent :=
  NodeContent.tarStream (TarItems.readErr errInvalid TarItems.nil)

/-- Go `TZgrep.findPath`: open the root; on failure emit a failure Result
with the one-element chain, then (missing `return`) fall through to
`find` on the failed handle with that same one-element chain. -/
def findPath (m : String → Bool) (rc : RootContent) (path : String) : Trav :=
  match rc with
  | RootContent.openOk c => find m c [path]
  | RootContent.openFails e broken =>
      let t := find m broken [path]
      ⟨⟨[path], some e⟩ :: t.out, t.visited, t.panicked⟩

/-! ## Helper lemmas about the descent -/

theorem mem_ifMatch {m : String → Bool} {path : List String} {r : Result}
    (h : r ∈ (if m (lastName path) then [Result.mk path none] else ([] : List Result))) :
    r = ⟨path, none⟩ ∧ m (lastName path) = true := by
  by_cases hm : m (lastName path) = true
  · simp [hm] at h
    exact ⟨h, hm⟩
  · simp [hm] at h

mutual

/-- Soundness: every Result `find` emits without an error carries a chain
whose terminal name satisfies the matcher. -/
theorem find_sound (m : String → Bool) (c : NodeContent) (path : List String) :
    ∀ r ∈ (find m c path).out, r.Err = none → m (lastName r.Path) = true := by
  intro r hr he
  cases c with
  | failTransform e =>
      simp only [find] at hr
      cases hnd : newDecompressor (lastName path) with
      | none =>
          rw [hnd] at hr
          simp only at hr
          obtain ⟨hre, hm⟩ := mem_ifMatch hr
          rw [hre]
          exact hm
      | some t =>
          rw [hnd] at hr
          simp only [List.mem_append] at hr
          cases hr with
          | inl h =>
              obtain ⟨hre, hm⟩ := mem_ifMatch h
              rw [hre]
              exact hm
          | inr h =>
              simp only [List.mem_singleton] at h
              rw [h] at he
              simp at he
  | tarStream items =>
      simp only [find] at hr
      cases hnd : newDecompressor (lastName path) with
      | none =>
          rw [hnd] at hr
          simp only at hr
          obtain ⟨hre, hm⟩ := mem_ifMatch hr
          rw [hre]
          exact hm
      | some t =>
          rw [hnd] at hr
          simp only [List.mem_append] at hr
          cases hr with
          | inl h =>
              obtain ⟨hre, hm⟩ := mem_ifMatch h
              rw [hre]
              exact hm
          | inr h =>
              exact findItems_sound m items path r h he
termination_by structural c

/-- Soundness for the tar-entry loop. -/
theorem findItems_sound (m : String → Bool) (items : TarItems) (path : List String) :
    ∀ r ∈ (findItems m items path).out, r.Err = none → m (lastName r.Path) = true := by
  intro r hr he
  cases items with
  | nil => simp [findItems] at hr
  | readErr e rest =>
      simp only [findItems, List.mem_singleton] at hr
      rw [hr] at he
      simp at he
  | entry n c rest =>
      simp only [findItems] at hr
      by_cases hp : (find m c (path ++ [n])).panicked = true
      · rw [if_pos hp] at hr
        exact find_sound m c (path ++ [n]) r hr he
      · rw [if_neg hp] at hr
        simp only [List.mem_append] at hr
        cases hr with
        | inl h => exact find_sound m c (path ++ [n]) r h he
        | inr h => exact findItems_sound m rest path r h he
termination_by structural items

end

theorem mem_deeper {v : List (List String × Nat)} {p : List String × Nat}
    (h : p ∈ deeper v) : ∃ q ∈ v, p = (q.1, q.2 + 1) := by
  simp only [deeper, List.mem_map] at h
  obtain ⟨q, hq, he⟩ := h
  exact ⟨q, hq, he.symm⟩

mutual

/-- Completeness: every node the descent visits whose terminal name
satisfies the matcher contributes a match Result to the output. -/
theorem find_complete (m : String → Bool) (c : NodeContent) (path : List String) :
    ∀ p ∈ (find m c path).visited, m (lastName p.1) = true →
      Result.mk p.1 none ∈ (find m c path).out := by
  intro p hp hm
  cases c with
  | failTransform e =>
      simp only [find] at hp ⊢
      cases hnd : newDecompressor (lastName path) with
      | none =>
          rw [hnd] at hp
          have hp' : p = (path, 0) := by simpa using hp
          subst hp'
          have hm' : m (lastName path) = true := hm
          show Result.mk path none ∈
            (if m (lastName path) then [Result.mk path none] else ([] : List Result))
          simp [hm']
      | some t =>
          rw [hnd] at hp
          have hp' : p = (path, 0) := by simpa using hp
          subst hp'
          have hm' : m (lastName path) = true := hm
          show Result.mk path none ∈
            (if m (lastName path) then [Result.mk path none] else ([] : List Result)) ++
              [Result.mk path (some e)]
          simp [hm']
  | tarStream items =>
      simp only [find] at hp ⊢
      cases hnd : newDecompressor (lastName path) with
      | none =>
          rw [hnd] at hp
          have hp' : p = (path, 0) := by simpa using hp
          subst hp'
          have hm' : m (lastName path) = true := hm
          show Result.mk path none ∈
            (if m (lastName path) then [Result.mk path none] else ([] : List Result))
          simp [hm']
      | some t =>
          rw [hnd] at hp
          have hp' : p = (path, 0) ∨ p ∈ deeper (findItems m items path).visited := by
            simpa using hp
          cases hp' with
          | inl h =>
              subst h
              have hm' : m (lastName path) = true := hm
              show Result.mk path none ∈
                (if m (lastName path) then [Result.mk path none] else ([] : List Result)) ++
                  (findItems m items path).out
              simp [hm']
          | inr h =>
              obtain ⟨q, hq, he⟩ := mem_deeper h
              have hmq : m (lastName q.1) = true := by rw [he] at hm; exact hm
              have hout := findItems_complete m items path q hq hmq
              subst he
              show Result.mk q.1 none ∈
                (if m (lastName path) then [Result.mk path none] else ([] : List Result)) ++
                  (findItems m items path).out
              exact List.mem_append_right _ hout
termination_by structural c

/-- Completeness for the tar-entry loop. -/
theorem findItems_complete (m : String → Bool) (items : TarItems) (path : List String) :
    ∀ p ∈ (findItems m items path).visited, m (lastName p.1) = true →
      Result.mk p.1 none ∈ (findItems m items path).out := by
  intro p hp hm
  cases items with
  | nil => simp [findItems] at hp
  | readErr e rest => simp [findItems] at hp
  | entry n c rest =>
      simp only [findItems] at hp ⊢
      by_cases hpan : (find m c (path ++ [n])).panicked = true
      · rw [if_pos hpan] at hp ⊢
        exact find_complete m c (path ++ [n]) p hp hm
      · rw [if_neg hpan] at hp ⊢
        simp only [List.mem_append] at hp ⊢
        cases hp with
        | inl h => exact Or.inl (find_complete m c (path ++ [n]) p h hm)
        | inr h => exact Or.inr (findItems_complete m rest path p h hm)
termination_by structural items

end

mutual

/-- Every chain in the visit log extends the chain of the call by exactly
its recorded recursion depth, one name per level. -/
theorem find_visited_ext (m : String → Bool) (c : NodeContent) (path : List String) :
    ∀ p ∈ (find m c path).visited, p.1.length = path.length + p.2 ∧ path <+: p.1 := by
  intro p hp
  cases c with
  | failTransform e =>
      simp only [find] at hp
      cases hnd : newDecompressor (lastName path) with
      | none =>
          rw [hnd] at hp
          simp only [List.mem_singleton] at hp
          rw [hp]
          exact ⟨rfl, List.prefix_rfl⟩
      | some t =>
          rw [hnd] at hp
          simp only [List.mem_singleton] at hp
          rw [hp]
          exact ⟨rfl, List.prefix_rfl⟩
  | tarStream items =>
      simp only [find] at hp
      cases hnd : newDecompressor (lastName path) with
      | none =>
          rw [hnd] at hp
          simp only [List.mem_singleton] at hp
          rw [hp]
          exact ⟨rfl, List.prefix_rfl⟩
      | some t =>
          rw [hnd] at hp
          simp only [List.mem_cons] at hp
          cases hp with
          | inl h =>
              rw [h]
              exact ⟨rfl, List.prefix_rfl⟩
          | inr h =>
              obtain ⟨q, hq, he⟩ := mem_deeper h
              obtain ⟨hl, hpre⟩ := findItems_visited_ext m items path q hq
              rw [he]
              exact ⟨by simpa [Nat.add_assoc] using hl, hpre⟩
termination_by structural c

/-- Every chain visited from the tar-entry loop extends the container's
chain by at least one name, its depth counting the extra levels. -/
theorem findItems_visited_ext (m : String → Bool) (items : TarItems) (path : List String) :
    ∀ p ∈ (findItems m items path).visited,
      p.1.length = path.length + p.2 + 1 ∧ path <+: p.1 := by
  intro p hp
  cases items with
  | nil => simp [findItems] at hp
  | readErr e rest => simp [findItems] at hp
  | entry n c rest =>
      simp only [findItems] at hp
      by_cases hpan : (find m c (path ++ [n])).panicked = true
      · rw [if_pos hpan] at hp
        obtain ⟨hl, hpre⟩ := find_visited_ext m c (path ++ [n]) p hp
        refine ⟨?_, List.IsPrefix.trans (List.prefix_append path [n]) hpre⟩
        simpa [Nat.add_comm, Nat.add_assoc, Nat.add_left_comm] using hl
      · rw [if_neg hpan] at hp
        simp only [List.mem_append] at hp
        cases hp with
        | inl h =>
            obtain ⟨hl, hpre⟩ := find_visited_ext m c (path ++ [n]) p h
            refine ⟨?_, List.IsPrefix.trans (List.prefix_append path [n]) hpre⟩
            simpa [Nat.add_comm, Nat.add_assoc, Nat.add_left_comm] using hl
        | inr h => exact findItems_visited_ext m rest path p h
termination_by structural items

end

mutual

/-- Every emitted Result's chain extends the chain of the call. -/
theorem find_out_ext (m : String → Bool) (c : NodeContent) (path : List String) :
    ∀ r ∈ (find m c path).out, path <+: r.Path := by
  intro r hr
  cases c with
  | failTransform e =>
      simp only [find] at hr
      cases hnd : newDecompressor (lastName path) with
      | none =>
          rw [hnd] at hr
          simp only at hr
          obtain ⟨hre, _⟩ := mem_ifMatch hr
          subst hre
          exact List.prefix_rfl
      | some t =>
          rw [hnd] at hr
          simp only [List.mem_append] at hr
          cases hr with
          | inl h =>
              obtain ⟨hre, _⟩ := mem_ifMatch h
              subst hre
              exact List.prefix_rfl
          | inr h =>
              simp only [List.mem_singleton] at h
              subst h
              exact List.prefix_rfl
  | tarStream items =>
      simp only [find] at hr
      cases hnd : newDecompressor (lastName path) with
      | none =>
          rw [hnd] at hr
          simp only at hr
          obtain ⟨hre, _⟩ := mem_ifMatch hr
          subst hre
          exact List.prefix_rfl
      | some t =>
          rw [hnd] at hr
          simp only [List.mem_append] at hr
          cases hr with
          | inl h =>
              obtain ⟨hre, _⟩ := mem_ifMatch h
              subst hre
              exact List.prefix_rfl
          | inr h => exact findItems_out_ext m items path r h
termination_by structural c

/-- Every Result emitted by the tar-entry loop has the container's chain as
a prefix of its chain. -/
theorem findItems_out_ext (m : String → Bool) (items : TarItems) (path : List String) :
    ∀ r ∈ (findItems m items path).out, path <+: r.Path := by
  intro r hr
  cases items with
  | nil => simp [findItems] at hr
  | readErr e rest =>
      simp only [findItems, List.mem_singleton] at hr
      subst hr
      exact List.prefix_rfl
  | entry n c rest =>
      simp only [findItems] at hr
      by_cases hpan : (find m c (path ++ [n])).panicked = true
      · rw [if_pos hpan] at hr
        exact List.IsPrefix.trans (List.prefix_append path [n])
          (find_out_ext m c (path ++ [n]) r hr)
      · rw [if_neg hpan] at hr
        simp only [List.mem_append] at hr
        cases hr with
        | inl h =>
            exact List.IsPrefix.trans (List.prefix_append path [n])
              (find_out_ext m c (path ++ [n]) r h)
        | inr h => exact findItems_out_ext m rest path r h
termination_by structural items

end

/-! ## The dispatcher: `Start` and the channel-close protocol

`Start` does `wg.Add(len(paths))`, spawns a closer goroutine that waits on
the barrier and closes `tz.Out`, and spawns one goroutine per root that
runs `findPath` and then `wg.Done()`.  The synchronization skeleton is
modelled as a small-step machine: each root abstractly holds the finite
list of Results its descent will send, the WaitGroup counter mirrors
`wg`, and any interleaving of enabled steps is a behavior. -/

/-- Channel-level events: a send by root `i`, root `i`'s `wg.Done()`, and
`close(tz.Out)`. -/
inductive Event : Type where
  | emit (i : Nat) (r : Result)
  | done (i : Nat)
  | close
deriving DecidableEq, Repr

/-- One root goroutine: Results still to send, and whether `wg.Done()` ran. -/
structure RootSt where
  rem : List Result
  fin : Bool
deriving DecidableEq, Repr

/-- Shared state of `Start`: the root goroutines, the WaitGroup counter,
and whether the Result Channel has been closed. -/
structure StartState where
  roots : List RootSt
  counter : Nat
  closed : Bool
deriving DecidableEq, Repr

/-- State after `wg.Add(len(paths))` and goroutine launch: every root has
its whole output pending, nobody has called `Done`, the channel is open. -/
def startInit (outs : List (List Result)) : StartState :=
  ⟨outs.map (fun o => ⟨o, false⟩), outs.length, false⟩

/-- The enabled transitions.  A send is enabled whenever the goroutine has
a Result left (the machine does not forbid sending on a closed channel —
that this never happens is proved, not assumed); `Done` is enabled once a
root's sends are exhausted; the closer fires once the counter at zero. -/
inductive StartStep : StartState → Event → StartState → Prop where
  | emit (s : StartState) (i : Nat) (r : Result) (rs : List Result)
      (h : s.roots[i]? = some ⟨r :: rs, false⟩) :
      StartStep s (Event.emit i r) ⟨s.roots.set i ⟨rs, false⟩, s.counter, s.closed⟩
  | done (s : StartState) (i : Nat)
      (h : s.roots[i]? = some ⟨[], false⟩) :
      StartStep s (Event.done i) ⟨s.roots.set i ⟨[], true⟩, s.counter - 1, s.closed⟩
  | close (s : StartState) (h0 : s.counter = 0) (hc : s.closed = false) :
      StartStep s Event.close ⟨s.roots, s.counter, true⟩

/-- Finite executions: `StartReaches s tr s'` means the event list `tr` is
one interleaving taking `s` to `s'`. -/
inductive StartReaches : StartState → List Event → StartState → Prop where
  | refl (s : StartState) : StartReaches s [] s
  | step {s s' s'' : StartState} {e : Event} {tr : List Event} :
      StartStep s e s' → StartReaches s' tr s'' → StartReaches s (e :: tr) s''

/-- A state no step leaves: the execution is complete. -/
def Terminal (s : StartState) : Prop :=
  ∀ e s', ¬ StartStep s e s'

/-- The WaitGroup invariant: the counter equals the number of roots that
have not yet called `Done`, and a closed channel means the counter hit 0. -/
def StartInv (s : StartState) : Prop :=
  s.counter = s.roots.countP (fun rs => !rs.fin) ∧
    (s.closed = true → s.counter = 0)

theorem startInv_init (outs : List (List Result)) : StartInv (startInit outs) := by
  constructor
  · show outs.length = (outs.map (fun o => RootSt.mk o false)).countP (fun rs => !rs.fin)
    induction outs with
    | nil => rfl
    | cons o os ih => simpa [List.countP_cons] using ih
  · intro h
    simp [startInit] at h

theorem countP_set_getElem {l : List RootSt} {i : Nat} {a : RootSt}
    (p : RootSt → Bool) (b : RootSt) (h : l[i]? = some a) :
    (l.set i b).countP p + (if p a then 1 else 0) =
      l.countP p + (if p b then 1 else 0) := by
  induction l generalizing i with
  | nil => simp at h
  | cons x xs ih =>
      cases i with
      | zero =>
          simp only [List.getElem?_cons_zero, Option.some_inj] at h
          subst h
          simp only [List.set_cons_zero, List.countP_cons]
          omega
      | succ j =>
          simp only [List.getElem?_cons_succ] at h
          have := ih h
          simp only [List.set_cons_succ, List.countP_cons]
          omega

theorem mem_of_getElem? {l : List RootSt} {i : Nat} {a : RootSt}
    (h : l[i]? = some a) : a ∈ l := by
  induction l generalizing i with
  | nil => simp at h
  | cons x xs ih =>
      cases i with
      | zero =>
          simp only [List.getElem?_cons_zero, Option.some_inj] at h
          simp [h]
      | succ j =>
          simp only [List.getElem?_cons_succ] at h
          exact List.mem_cons_of_mem x (ih h)

theorem startInv_step {s s' : StartState} {e : Event}
    (hinv : StartInv s) (hstep : StartStep s e s') : StartInv s' := by
  obtain ⟨hc, hcl⟩ := hinv
  cases hstep with
  | emit i r rs h =>
      have := countP_set_getElem (fun rs => !rs.fin) ⟨rs, false⟩ h
      constructor
      · simp at this ⊢
        omega
      · intro hcl'
        exact hcl hcl'
  | done i h =>
      have := countP_set_getElem (fun rs => !rs.fin) ⟨[], true⟩ h
      have hpos : 0 < s.roots.countP (fun rs => !rs.fin) := by
        rw [List.countP_pos_iff]
        exact ⟨_, mem_of_getElem? h, rfl⟩
      constructor
      · simp at this ⊢
        omega
      · intro hcl'
        have h0 := hcl hcl'
        omega
  | close h0' hc' =>
      exact ⟨hc, fun _ => h0'⟩

theorem startInv_reaches {s s' : StartState} {tr : List Event}
    (hinv : StartInv s) (hr : StartReaches s tr s') : StartInv s' := by
  induction hr with
  | refl => exact hinv
  | step hstep _ ih => exact ih (startInv_step hinv hstep)

/-- With the invariant, a closed state is stuck: every root has already
called `Done`, so no send and no `Done` is enabled, and the channel cannot
be closed twice.  In particular no send on a closed channel is reachable. -/
theorem no_step_of_closed {s : StartState} (hinv : StartInv s)
    (hcl : s.closed = true) : Terminal s := by
  intro e s' hstep
  obtain ⟨hc, hcl0⟩ := hinv
  have h0 : s.roots.countP (fun rs => !rs.fin) = 0 := by
    have := hcl0 hcl
    omega
  have hall : ∀ rs ∈ s.roots, rs.fin = true := by
    intro rs hmem
    have := List.countP_eq_zero.mp h0 rs hmem
    simpa using this
  cases hstep with
  | emit i r rs h =>
      have := hall _ (mem_of_getElem? h)
      simp at this
  | done i h =>
      have := hall _ (mem_of_getElem? h)
      simp at this
  | close h0' hc' => rw [hcl] at hc'; cases hc'

theorem reaches_nil_of_closed {s s' : StartState} {tr : List Event}
    (hinv : StartInv s) (hcl : s.closed = true)
    (hr : StartReaches s tr s') : tr = [] := by
  cases hr with
  | refl => rfl
  | step hstep _ => exact absurd hstep (no_step_of_closed hinv hcl _ _)

theorem startReaches_append {s s'' : StartState} {t1 t2 : List Event}
    (h : StartReaches s (t1 ++ t2) s'') :
    ∃ smid, StartReaches s t1 smid ∧ StartReaches smid t2 s'' := by
  induction t1 generalizing s with
  | nil => exact ⟨s, StartReaches.refl s, h⟩
  | cons e t1' ih =>
      cases h with
      | step hstep hrest =>
          obtain ⟨smid, h1, h2⟩ := ih hrest
          exact ⟨smid, StartReaches.step hstep h1, h2⟩

theorem roots_length_step {s s' : StartState} {e : Event}
    (h : StartStep s e s') : s'.roots.length = s.roots.length := by
  cases h with
  | emit i r rs h => simp
  | done i h => simp
  | close h0 hc => rfl

theorem roots_length_reaches {s s' : StartState} {tr : List Event}
    (h : StartReaches s tr s') : s'.roots.length = s.roots.length := by
  induction h with
  | refl => rfl
  | step hstep _ ih => rw [ih, roots_length_step hstep]

/-- A root observed finished was finished at the start or its `Done` event
is in the trace. -/
theorem fin_origin {s s' : StartState} {tr : List Event} {i : Nat}
    (hr : StartReaches s tr s') {b : RootSt} (hb : s'.roots[i]? = some b)
    (hfin : b.fin = true) :
    (∃ a, s.roots[i]? = some a ∧ a.fin = true) ∨ Event.done i ∈ tr := by
  induction hr with
  | refl => exact Or.inl ⟨b, hb, hfin⟩
  | @step s s1 s'' e tr' hstep hrest ih =>
      rcases ih hb with ⟨a, ha, hafin⟩ | hmem
      · cases hstep with
        | emit j r rs h =>
            by_cases hij : j = i
            · subst hij
              have hlt : j < s.roots.length := by
                by_contra hge
                rw [List.getElem?_eq_none (by rw [List.length_set]; omega)] at ha
                cases ha
              rw [List.getElem?_set_self hlt] at ha
              have hae : a = ⟨rs, false⟩ := by
                cases ha
                rfl
              rw [hae] at hafin
              simp at hafin
            · simp only [List.getElem?_set_ne hij] at ha
              exact Or.inl ⟨a, ha, hafin⟩
        | done j h =>
            by_cases hij : j = i
            · subst hij
              exact Or.inr (List.mem_cons_self _ _)
            · simp only [List.getElem?_set_ne hij] at ha
              exact Or.inl ⟨a, ha, hafin⟩
        | close h0 hc =>
            exact Or.inl ⟨a, ha, hafin⟩
      · exact Or.inr (List.mem_cons_of_mem _ hmem)

/-- The channel is closed only by an explicit close event. -/
theorem closed_origin {s s' : StartState} {tr : List Event}
    (hr : StartReaches s tr s') (hcl : s'.closed = true) :
    s.closed = true ∨ Event.close ∈ tr := by
  induction hr with
  | refl => exact Or.inl hcl
  | @step s s1 s'' e tr' hstep hrest ih =>
      rcases ih hcl with h1 | hmem
      · cases hstep with
        | emit i r rs h => exact Or.inl h1
        | done i h => exact Or.inl h1
        | close h0 hc => exact Or.inr (List.mem_cons_self _ _)
      · exact Or.inr (List.mem_cons_of_mem _ hmem)

/-- At a close event every root's `Done` has already happened, and nothing
at all follows the close. -/
theorem close_is_final (outs : List (List Result)) {tr : List Event}
    {s' : StartState} (hr : StartReaches (startInit outs) tr s')
    {t1 t2 : List Event} (hsplit : tr = t1 ++ Event.close :: t2) :
    t2 = [] ∧ ∀ i < outs.length, Event.done i ∈ t1 := by
  subst hsplit
  obtain ⟨smid, h1, h2⟩ := startReaches_append hr
  cases h2 with
  | step hstep hrest =>
      cases hstep with
      | close h0 hc =>
          have hinvmid : StartInv smid := startInv_reaches (startInv_init outs) h1
          have hinv2 : StartInv ⟨smid.roots, smid.counter, true⟩ :=
            startInv_step hinvmid (StartStep.close smid h0 hc)
          refine ⟨reaches_nil_of_closed hinv2 rfl hrest, ?_⟩
          intro i hi
          obtain ⟨hcnt, _⟩ := hinvmid
          have hcp : smid.roots.countP (fun rs => !rs.fin) = 0 := by omega
          have hlen : smid.roots.length = outs.length := by
            have := roots_length_reaches h1
            simpa [startInit] using this
          have hib : i < smid.roots.length := by omega
          obtain ⟨b, hb⟩ : ∃ b, smid.roots[i]? = some b := by
            rw [List.getElem?_eq_getElem hib]
            exact ⟨_, rfl⟩
          have hbfin : b.fin = true := by
            have := List.countP_eq_zero.mp hcp b (mem_of_getElem? hb)
            simpa using this
          rcases fin_origin h1 hb hbfin with ⟨a, ha, hafin⟩ | hmem
          · exfalso
            simp only [startInit, List.getElem?_map] at ha
            obtain ⟨o, _, hoa⟩ := Option.map_eq_some'.mp ha
            rw [← hoa] at hafin
            simp at hafin
          · exact hmem

/-- A complete execution ends with the channel closed: were it still open,
some send, some `Done`, or the close itself would be enabled. -/
theorem terminal_closed {s : StartState} (hinv : StartInv s)
    (hterm : Terminal s) : s.closed = true := by
  by_contra hncl
  have hncl' : s.closed = false := by
    cases h : s.closed
    · rfl
    · exact absurd h hncl
  obtain ⟨hcnt, _⟩ := hinv
  by_cases h0 : s.roots.countP (fun rs => !rs.fin) = 0
  · exact hterm Event.close _ (StartStep.close s (by omega) hncl')
  · have hpos : 0 < s.roots.countP (fun rs => !rs.fin) := by omega
    obtain ⟨a, hmem, hp⟩ := List.countP_pos_iff.mp hpos
    obtain ⟨i, hi⟩ := List.mem_iff_getElem?.mp hmem
    have hafin : a.fin = false := by simpa using hp
    cases hrem : a.rem with
    | nil =>
        refine hterm _ _ (StartStep.done s i ?_)
        rw [hi]
        cases a with
        | mk rem fin => simp_all
    | cons r rs =>
        refine hterm _ _ (StartStep.emit s i r rs ?_)
        rw [hi]
        cases a with
        | mk rem fin => simp_all

/-- Claim C4's content, packaged over arbitrary interleavings: any close
event is final and preceded by every root's `Done`, and every complete
execution closes the channel exactly once. -/
theorem start_close_protocol (outs : List (List Result)) (tr : List Event)
    (s' : StartState) (hr : StartReaches (startInit outs) tr s') :
    (∀ t1 t2, tr = t1 ++ Event.close :: t2 →
        t2 = [] ∧ ∀ i < outs.length, Event.done i ∈ t1) ∧
    (Terminal s' → tr.count Event.close = 1) := by
  constructor
  · intro t1 t2 hsplit
    exact close_is_final outs hr hsplit
  · intro hterm
    have hinv' : StartInv s' := startInv_reaches (startInv_init outs) hr
    have hcl : s'.closed = true := terminal_closed hinv' hterm
    have hmem : Event.close ∈ tr := by
      rcases closed_origin hr hcl with h | h
      · simp [startInit] at h
      · exact h
    obtain ⟨t1, t2, hsplit⟩ := List.append_of_mem hmem
    have h2 := close_is_final outs hr hsplit
    have ht2 : t2 = [] := h2.1
    have hnot1 : Event.close ∉ t1 := by
      intro hmem1
      obtain ⟨u1, u2, hsplit1⟩ := List.append_of_mem hmem1
      have : (u2 ++ Event.close :: t2) = [] := by
        have hs2 : tr = u1 ++ Event.close :: (u2 ++ Event.close :: t2) := by
          rw [hsplit, hsplit1]
          simp
        exact (close_is_final outs hr hs2).1
      simp at this
    rw [hsplit, ht2]
    rw [List.count_append]
    rw [List.count_eq_zero.mpr hnot1]
    simp [List.count_cons]

/-- With no roots, the only complete execution is an immediate close:
no descent is launched and no Result is ever emitted. -/
theorem start_empty {tr : List Event} {s' : StartState}
    (hr : StartReaches (startInit []) tr s') (hterm : Terminal s') :
    tr = [Event.close] := by
  cases hr with
  | refl => exact absurd (StartStep.close (startInit []) rfl rfl) (hterm _ _)
  | step hstep hrest =>
      cases hstep with
      | emit i r rs h => simp [startInit] at h
      | done i h => simp [startInit] at h
      | close h0 hc =>
          have hinv : StartInv ⟨(startInit []).roots, (startInit []).counter, true⟩ :=
            ⟨rfl, fun _ => rfl⟩
          rw [reaches_nil_of_closed hinv rfl hrest]

/-! ## Suffix disjointness facts for the classifier -/

theorem hasSuffix_iff {s suf : String} :
    hasSuffix s suf = true ↔ suf.toList <:+ s.toList := by
  simp [hasSuffix]

/-- If some suffix `a` of `s` is suffix-incomparable with every member of
`bs`, then no member of `bs` is a suffix of `s` (two suffixes of the same
list are always comparable). -/
theorem hasSuffixes_false_of_incomparable {s a : String} (bs : List String)
    (ha : hasSuffix s a = true)
    (h : ∀ b ∈ bs, ¬ a.toList <:+ b.toList ∧ ¬ b.toList <:+ a.toList) :
    hasSuffixes s bs = false := by
  rw [hasSuffixes, List.any_eq_false]
  intro b hb
  simp only [Bool.not_eq_true]
  cases hsb : hasSuffix s b
  · rfl
  · exfalso
    have h1 := hasSuffix_iff.mp ha
    have h2 := hasSuffix_iff.mp hsb
    rcases List.suffix_or_suffix_of_suffix h1 h2 with hab | hba
    · exact (h b hb).1 hab
    · exact (h b hb).2 hba

/-- A name with none of the suffixes of `cs` has none of the suffixes of a
subset `bs` either. -/
theorem hasSuffixes_false_of_subset {s : String} {bs cs : List String}
    (h : hasSuffixes s cs = false) (hsub : ∀ b ∈ bs, b ∈ cs) :
    hasSuffixes s bs = false := by
  rw [hasSuffixes, List.any_eq_false]
  intro b hb
  rw [hasSuffixes, List.any_eq_false] at h
  exact h b (hsub b hb)

/-- Extract a witnessing suffix from `hasSuffixes`. -/
theorem exists_of_hasSuffixes {s : String} {bs : List String}
    (h : hasSuffixes s bs = true) : ∃ b ∈ bs, hasSuffix s b = true := by
  rw [hasSuffixes, List.any_eq_true] at h
  exact h

/-- Conversely, one member suffices. -/
theorem hasSuffixes_of_mem {s b : String} {bs : List String} (hb : b ∈ bs)
    (h : hasSuffix s b = true) : hasSuffixes s bs = true := by
  rw [hasSuffixes, List.any_eq_true]
  exact ⟨b, hb, h⟩

/-! ## The Go slice model for chain extension

Go's `append` writes into the backing array in place when spare capacity
exists — two sibling recursive calls handed chains that alias one backing
array would then corrupt each other.  `find` extends the chain with
`append(path[:len(path):len(path)], h.Name)`: the three-index slice clamps
the capacity to the length, forcing `append` to allocate a fresh array. -/

/-- A Go slice of strings: element values plus backing-array capacity. -/
structure GoSlice where
  elems : List String
  cap : Nat
deriving DecidableEq, Repr

/-- Go `append(s, x)`: reuses the backing array (aliasing the argument)
when spare capacity exists, otherwise allocates fresh.  The Bool is true
iff a fresh backing array was allocated. -/
def goAppend (s : GoSlice) (x : String) : GoSlice × Bool :=
  if s.elems.length < s.cap then (⟨s.elems ++ [x], s.cap⟩, false)
  else (⟨s.elems ++ [x], s.elems.length + 1⟩, true)

/-- The three-index slice `path[:len(path):len(path)]` from the recursive
call in `TZgrep.find`: same elements, capacity clamped to length. -/
def fullSlice (s : GoSlice) : GoSlice :=
  ⟨s.elems, s.elems.length⟩

theorem goAppend_fullSlice_fresh (s : GoSlice) (x : String) :
    (goAppend (fullSlice s) x).2 = true ∧
      (goAppend (fullSlice s) x).1.elems = s.elems ++ [x] := by
  constructor
  · simp [goAppend, fullSlice]
  · simp [goAppend, fullSlice]

/-- The head of every visit log is the current chain at depth zero. -/
theorem find_visited_head (m : String → Bool) (c : NodeContent)
    (path : List String) : (path, 0) ∈ (find m c path).visited := by
  cases c with
  | failTransform e =>
      cases hnd : newDecompressor (lastName path) with
      | none => simp [find, hnd]
      | some t => simp [find, hnd]
  | tarStream items =>
      cases hnd : newDecompressor (lastName path) with
      | none => simp [find, hnd]
      | some t => simp [find, hnd]

/-- The match-check Result is always emitted when the matcher accepts the
terminal name, whatever else the node is. -/
theorem find_match_emitted (m : String → Bool) (c : NodeContent)
    (path : List String) (hm : m (lastName path) = true) :
    Result.mk path none ∈ (find m c path).out := by
  cases c with
  | failTransform e =>
      cases hnd : newDecompressor (lastName path) with
      | none => simp [find, hnd, hm]
      | some t => simp [find, hnd, hm]
  | tarStream items =>
      cases hnd : newDecompressor (lastName path) with
      | none => simp [find, hnd, hm]
      | some t => simp [find, hnd, hm]

/-! ## Classifier branch lemmas -/

theorem newDecompressor_tar {name : String}
    (h : hasSuffixes (toLower name) [".tar"] = true) :
    newDecompressor name = some Transform.ident := by
  simp [newDecompressor, h]

theorem newDecompressor_gzip {name : String}
    (h : hasSuffixes (toLower name) [".tar.gz", ".tgz", ".taz"] = true) :
    newDecompressor name = some Transform.gzip := by
  obtain ⟨b, hb, hsb⟩ := exists_of_hasSuffixes h
  have htar : hasSuffixes (toLower name) [".tar"] = false := by
    refine hasSuffixes_false_of_incomparable _ hsb ?_
    intro x hx
    simp only [List.mem_singleton] at hx
    subst hx
    simp only [List.mem_cons, List.mem_singleton, List.mem_nil_iff, or_false] at hb
    rcases hb with rfl | rfl | rfl
    · exact ⟨by decide, by decide⟩
    · exact ⟨by decide, by decide⟩
    · exact ⟨by decide, by decide⟩
  simp [newDecompressor, htar, h]

theorem newDecompressor_tarbz {name : String}
    (h : hasSuffixes (toLower name) [".tar.bz"] = true) :
    newDecompressor name = some Transform.bzip2 := by
  obtain ⟨b, hb, hsb⟩ := exists_of_hasSuffixes h
  simp only [List.mem_singleton] at hb
  subst hb
  have htar : hasSuffixes (toLower name) [".tar"] = false := by
    refine hasSuffixes_false_of_incomparable _ hsb ?_
    intro x hx
    simp only [List.mem_singleton] at hx
    subst hx
    exact ⟨by decide, by decide⟩
  have hgz : hasSuffixes (toLower name) [".tar.gz", ".tgz", ".taz"] = false := by
    refine hasSuffixes_false_of_incomparable _ hsb ?_
    intro x hx
    simp only [List.mem_cons, List.mem_singleton, List.mem_nil_iff, or_false] at hx
    rcases hx with rfl | rfl | rfl
    · exact ⟨by decide, by decide⟩
    · exact ⟨by decide, by decide⟩
    · exact ⟨by decide, by decide⟩
  have hbz : hasSuffixes (toLower name)
      [".tar.bz2", ".tar.bz", ".tbz", ".tbz2", ".tz2", ".tb2"] = true :=
    hasSuffixes_of_mem (by decide) hsb
  simp [newDecompressor, htar, hgz, hbz]

theorem newDecompressor_tarzstd {name : String}
    (h : hasSuffixes (toLower name) [".tar.zstd"] = true) :
    newDecompressor name = some Transform.zstd := by
  obtain ⟨b, hb, hsb⟩ := exists_of_hasSuffixes h
  simp only [List.mem_singleton] at hb
  subst hb
  have htar : hasSuffixes (toLower name) [".tar"] = false := by
    refine hasSuffixes_false_of_incomparable _ hsb ?_
    intro x hx
    simp only [List.mem_singleton] at hx
    subst hx
    exact ⟨by decide, by decide⟩
  have hgz : hasSuffixes (toLower name) [".tar.gz", ".tgz", ".taz"] = false := by
    refine hasSuffixes_false_of_incomparable _ hsb ?_
    intro x hx
    simp only [List.mem_cons, List.mem_singleton, List.mem_nil_iff, or_false] at hx
    rcases hx with rfl | rfl | rfl
    · exact ⟨by decide, by decide⟩
    · exact ⟨by decide, by decide⟩
    · exact ⟨by decide, by decide⟩
  have hbz : hasSuffixes (toLower name)
      [".tar.bz2", ".tar.bz", ".tbz", ".tbz2", ".tz2", ".tb2"] = false := by
    refine hasSuffixes_false_of_incomparable _ hsb ?_
    intro x hx
    simp only [List.mem_cons, List.mem_singleton, List.mem_nil_iff, or_false] at hx
    rcases hx with rfl | rfl | rfl | rfl | rfl | rfl
    · exact ⟨by decide, by decide⟩
    · exact ⟨by decide, by decide⟩
    · exact ⟨by decide, by decide⟩
    · exact ⟨by decide, by decide⟩
    · exact ⟨by decide, by decide⟩
    · exact ⟨by decide, by decide⟩
  have hxz : hasSuffixes (toLower name) [".tar.xz", ".txz"] = false := by
    refine hasSuffixes_false_of_incomparable _ hsb ?_
    intro x hx
    simp only [List.mem_cons, List.mem_singleton, List.mem_nil_iff, or_false] at hx
    rcases hx with rfl | rfl
    · exact ⟨by decide, by decide⟩
    · exact ⟨by decide, by decide⟩
  have hzst : hasSuffixes (toLower name) [".tar.zst", ".tzst", ".tar.zstd"] = true :=
    hasSuffixes_of_mem (by decide) hsb
  simp [newDecompressor, htar, hgz, hbz, hxz, hzst]

theorem newDecompressor_unknown {name : String}
    (h : hasSuffixes (toLower name) allTarSuffixes = false) :
    newDecompressor name = none := by
  have h1 : hasSuffixes (toLower name) [".tar"] = false :=
    hasSuffixes_false_of_subset h (by decide)
  have h2 : hasSuffixes (toLower name) [".tar.gz", ".tgz", ".taz"] = false :=
    hasSuffixes_false_of_subset h (by decide)
  have h3 : hasSuffixes (toLower name)
      [".tar.bz2", ".tar.bz", ".tbz", ".tbz2", ".tz2", ".tb2"] = false :=
    hasSuffixes_false_of_subset h (by decide)
  have h4 : hasSuffixes (toLower name) [".tar.xz", ".txz"] = false :=
    hasSuffixes_false_of_subset h (by decide)
  have h5 : hasSuffixes (toLower name) [".tar.zst", ".tzst", ".tar.zstd"] = false :=
    hasSuffixes_false_of_subset h (by decide)
  simp [newDecompressor, h1, h2, h3, h4, h5]

/-! ## Witness fixtures -/

/-- Concrete matcher for witnesses: matches exactly the name `y.txt`. -/
def wMatcher : String → Bool := fun s => s == "y.txt"

/-- Concrete content for witnesses: a container holding one leaf entry
`y.txt`. -/
def wContent : NodeContent :=
  NodeContent.tarStream
    (TarItems.entry "y.txt" (NodeContent.tarStream TarItems.nil) TarItems.nil)

/-- Concrete Result for dispatcher witnesses. -/
def wResult : Result := ⟨["leaf.txt"], none⟩

/-! ## The claims -/

/-- Claim C1 (confirmed): matching is sound and complete.  Every Result a
root's traversal emits without an error carries a Path Chain whose
terminal name satisfies the matcher, and every node visited during the
traversal whose terminal name satisfies the matcher has a match Result
with its full chain in the output. -/
theorem claim1_matching_sound_complete (m : String → Bool) (rc : RootContent)
    (root : String) :
    (∀ r ∈ (findPath m rc root).out, r.Err = none → m (lastName r.Path) = true) ∧
    (∀ p ∈ (findPath m rc root).visited, m (lastName p.1) = true →
        Result.mk p.1 none ∈ (findPath m rc root).out) := by
  cases rc with
  | openOk c => exact ⟨find_sound m c [root], find_complete m c [root]⟩
  | openFails e broken =>
      constructor
      · intro r hr he
        simp only [findPath, List.mem_cons] at hr
        rcases hr with rfl | hr
        · simp at he
        · exact find_sound m broken [root] r hr he
      · intro p hp hm
        simp only [findPath] at hp ⊢
        exact List.mem_cons_of_mem _ (find_complete m broken [root] p hp hm)

theorem claim1_witness :
    Result.mk ["a.tar", "y.txt"] none ∈
      (findPath wMatcher (RootContent.openOk wContent) "a.tar").out :=
  (claim1_matching_sound_complete wMatcher (RootContent.openOk wContent) "a.tar").2
    (["a.tar", "y.txt"], 1) (by decide) (by decide)

/-- Claim C2 (code bug): at a root `bad.tar.gz` whose gzip transform
fails, the code emits the one failure Result tagged with the chain but
does not stop the branch: lacking a `return` after the emission it builds
a tar reader over the failed transform's nil reader and the first read is
a nil dereference — the goroutine panics (`panicked = true`) instead of
stopping cleanly. -/
theorem claim2_transform_failure_not_stopped :
    find (fun _ => false) (NodeContent.failTransform "gzip: invalid header")
        ["bad.tar.gz"] =
      ⟨[⟨["bad.tar.gz"], some "gzip: invalid header"⟩],
       [(["bad.tar.gz"], 0)], true⟩ := by decide

/-- Claim C3 (code bug): for a root `missing.tar` whose open fails, the
code emits the open-failure Result but, lacking a `return`, falls through
into `find` on the nil file handle; the identity `.tar` transform
succeeds on it and the tar reader's first `Next` fails with
`os.ErrInvalid`, producing a second failure Result for the same root —
not the single failure Result the claim requires. -/
theorem claim3_open_failure_not_single :
    findPath (fun _ => false)
        (RootContent.openFails "open missing.tar: no such file or directory"
          nilFileContent) "missing.tar" =
      ⟨[⟨["missing.tar"], some "open missing.tar: no such file or directory"⟩,
        ⟨["missing.tar"], some errInvalid⟩],
       [(["missing.tar"], 0)], false⟩ := by decide

/-- Claim C4 (confirmed): over every interleaving of the dispatcher's
machine, a close event is final — nothing (in particular no send) can
follow it and every root's `Done` precedes it — and every complete
execution closes the Result Channel exactly once. -/
theorem claim4_channel_close_protocol (outs : List (List Result))
    (tr : List Event) (s' : StartState)
    (hr : StartReaches (startInit outs) tr s') :
    (∀ t1 t2, tr = t1 ++ Event.close :: t2 →
        t2 = [] ∧ ∀ i < outs.length, Event.done i ∈ t1) ∧
    (Terminal s' → tr.count Event.close = 1) :=
  start_close_protocol outs tr s' hr

theorem claim4_witness :
    (∀ t1 t2, [Event.emit 0 wResult, Event.done 0, Event.close] =
        t1 ++ Event.close :: t2 →
        t2 = [] ∧ ∀ i < [[wResult]].length, Event.done i ∈ t1) ∧
    (Terminal (⟨[⟨[], true⟩], 0, true⟩ : StartState) →
        [Event.emit 0 wResult, Event.done 0, Event.close].count Event.close = 1) := by
  refine claim4_channel_close_protocol [[wResult]] _ _ ?_
  refine StartReaches.step
    (StartStep.emit (startInit [[wResult]]) 0 wResult [] (by decide)) ?_
  refine StartReaches.step (StartStep.done _ 0 (by decide)) ?_
  refine StartReaches.step (StartStep.close _ (by decide) (by decide)) ?_
  exact StartReaches.refl _

/-- Claim C5 (confirmed): a non-EOF read error during one container's tar
iteration emits exactly one failure Result tagged with the container's
chain and stops the iteration — whatever items lie beyond the error are
never visited and contribute nothing — while normal end-of-stream stops
the iteration with no Result; an error after a successfully processed
entry likewise adds exactly the one failure and nothing from beyond it. -/
theorem claim5_tar_iteration_errors (m : String → Bool) (e : Err)
    (rest : TarItems) (n : String) (c : NodeContent) (path : List String) :
    (findItems m (TarItems.readErr e rest) path =
      ⟨[⟨path, some e⟩], [], false⟩) ∧
    (findItems m TarItems.nil path = ⟨[], [], false⟩) ∧
    ((find m c (path ++ [n])).panicked = false →
      findItems m (TarItems.entry n c (TarItems.readErr e rest)) path =
        ⟨(find m c (path ++ [n])).out ++ [⟨path, some e⟩],
         (find m c (path ++ [n])).visited, false⟩) := by
  refine ⟨rfl, rfl, ?_⟩
  intro hnp
  simp [findItems, hnp]

theorem claim5_witness :
    findItems wMatcher
        (TarItems.entry "y.txt" (NodeContent.tarStream TarItems.nil)
          (TarItems.readErr "tar: invalid header" TarItems.nil)) ["a.tar"] =
      ⟨(find wMatcher (NodeContent.tarStream TarItems.nil) ["a.tar", "y.txt"]).out ++
        [⟨["a.tar"], some "tar: invalid header"⟩],
       (find wMatcher (NodeContent.tarStream TarItems.nil) ["a.tar", "y.txt"]).visited,
       false⟩ :=
  (claim5_tar_iteration_errors wMatcher "tar: invalid header" TarItems.nil "y.txt"
    (NodeContent.tarStream TarItems.nil) ["a.tar"]).2.2 (by decide)

/-- Claim C6 (confirmed): classification is a pure, deterministic,
case-insensitive function of the name's suffix: a name ending
case-insensitively in `.tar.gz`, `.tgz` or `.taz` selects the gzip
transform as a container, a name ending in `.tar` selects the identity
transform as a container, and a name with none of the table's suffixes is
not a container. -/
theorem claim6_classification (name : String) :
    (hasSuffixes (toLower name) [".tar.gz", ".tgz", ".taz"] = true →
        newDecompressor name = some Transform.gzip) ∧
    (hasSuffixes (toLower name) [".tar"] = true →
        newDecompressor name = some Transform.ident) ∧
    (hasSuffixes (toLower name) allTarSuffixes = false →
        newDecompressor name = none) :=
  ⟨fun h => newDecompressor_gzip h, fun h => newDecompressor_tar h,
   fun h => newDecompressor_unknown h⟩

theorem claim6_witness :
    newDecompressor "X.TAR.GZ" = some Transform.gzip ∧
    newDecompressor "ARCHIVE.TAR" = some Transform.ident ∧
    newDecompressor "notes.txt" = none :=
  ⟨(claim6_classification "X.TAR.GZ").1 (by decide),
   (claim6_classification "ARCHIVE.TAR").2.1 (by decide),
   (claim6_classification "notes.txt").2.2 (by decide)⟩

/-- Claim C7 (confirmed): matching and recursion are independent checks on
the same node: an accepted name always has its match Result emitted
(container or not), a container node is recursed into (its first entry is
visited) whether or not it matched, and an unknown suffix makes the node
a leaf — its visit log is just itself — regardless of matching. -/
theorem claim7_match_recursion_independent (m : String → Bool)
    (c : NodeContent) (path : List String) :
    (m (lastName path) = true → Result.mk path none ∈ (find m c path).out) ∧
    (∀ n c' rest, c = NodeContent.tarStream (TarItems.entry n c' rest) →
        (newDecompressor (lastName path)).isSome = true →
        (path ++ [n], 1) ∈ (find m c path).visited) ∧
    (newDecompressor (lastName path) = none →
        (find m c path).visited = [(path, 0)]) := by
  refine ⟨find_match_emitted m c path, ?_, ?_⟩
  · intro n c' rest hc hcont
    subst hc
    cases hnd : newDecompressor (lastName path) with
    | none => rw [hnd] at hcont; simp at hcont
    | some t =>
        have h0 := find_visited_head m c' (path ++ [n])
        have h1 : (path ++ [n], 0) ∈
            (findItems m (TarItems.entry n c' rest) path).visited := by
          simp only [findItems]
          by_cases hp : (find m c' (path ++ [n])).panicked = true
          · rw [if_pos hp]
            exact h0
          · rw [if_neg hp]
            exact List.mem_append_left _ h0
        have h2 : (path ++ [n], 1) ∈
            deeper (findItems m (TarItems.entry n c' rest) path).visited := by
          simp only [deeper, List.mem_map]
          exact ⟨(path ++ [n], 0), h1, rfl⟩
        simp only [find]
        rw [hnd]
        exact List.mem_cons_of_mem _ h2
  · intro h
    cases c with
    | failTransform e => simp [find, h]
    | tarStream items => simp [find, h]

theorem claim7_witness :
    Result.mk ["y.txt"] none ∈ (find wMatcher wContent ["y.txt"]).out ∧
    (["a.tar", "y.txt"], 1) ∈ (find wMatcher wContent ["a.tar"]).visited ∧
    (find wMatcher wContent ["y.txt"]).visited = [(["y.txt"], 0)] :=
  ⟨(claim7_match_recursion_independent wMatcher wContent ["y.txt"]).1 (by decide),
   (claim7_match_recursion_independent wMatcher wContent ["a.tar"]).2.1 "y.txt"
     (NodeContent.tarStream TarItems.nil) TarItems.nil rfl (by decide),
   (claim7_match_recursion_independent wMatcher wContent ["y.txt"]).2.2 (by decide)⟩

/-- Claim C8 (confirmed): every chain in a root's traversal has length at
least 1 and extends the root chain, a node at recursion depth D carries a
chain of exactly D+1 elements, every emitted Result's chain is nonempty,
and the recursive call's three-index slice `path[:len(path):len(path)]`
forces `append` to allocate a fresh backing array, so a child's chain
never aliases a sibling's. -/
theorem claim8_chain_invariant (m : String → Bool) (c : NodeContent)
    (root : String) :
    (∀ p ∈ (find m c [root]).visited,
        p.1.length = p.2 + 1 ∧ 1 ≤ p.1.length ∧ [root] <+: p.1) ∧
    (∀ r ∈ (find m c [root]).out, 1 ≤ r.Path.length) ∧
    (∀ s x, (goAppend (fullSlice s) x).2 = true ∧
        (goAppend (fullSlice s) x).1.elems = s.elems ++ [x]) := by
  refine ⟨?_, ?_, fun s x => goAppend_fullSlice_fresh s x⟩
  · intro p hp
    obtain ⟨hl, hpre⟩ := find_visited_ext m c [root] p hp
    simp only [List.length_cons, List.length_nil] at hl
    exact ⟨by omega, by omega, hpre⟩
  · intro r hr
    have hpre := find_out_ext m c [root] r hr
    have hlen := List.IsPrefix.length_le hpre
    simpa using hlen

theorem claim8_witness :
    (["a.tar", "y.txt"], 1).1.length = (["a.tar", "y.txt"], 1).2 + 1 ∧
      1 ≤ (["a.tar", "y.txt"], 1).1.length ∧
      ["a.tar"] <+: (["a.tar", "y.txt"], 1).1 :=
  (claim8_chain_invariant wMatcher wContent "a.tar").1
    (["a.tar", "y.txt"], 1) (by decide)

/-- Claim C9 (confirmed): beyond the variants the spec lists, the
classifier also accepts, case-insensitively, `.tar.bz` (bzip2 transform)
and `.tar.zstd` (zstd transform), both as containers. -/
theorem claim9_extra_suffixes (name : String) :
    (hasSuffixes (toLower name) [".tar.bz"] = true →
        newDecompressor name = some Transform.bzip2) ∧
    (hasSuffixes (toLower name) [".tar.zstd"] = true →
        newDecompressor name = some Transform.zstd) :=
  ⟨fun h => newDecompressor_tarbz h, fun h => newDecompressor_tarzstd h⟩

theorem claim9_witness :
    newDecompressor "pkg.TAR.BZ" = some Transform.bzip2 ∧
    newDecompressor "pkg.tar.zstd" = some Transform.zstd :=
  ⟨(claim9_extra_suffixes "pkg.TAR.BZ").1 (by decide),
   (claim9_extra_suffixes "pkg.tar.zstd").2 (by decide)⟩

/-- Claim C10 (confirmed): with an empty root list the dispatcher launches
no descent and the only complete execution is a bare close: the consumer
observes zero Results followed by closure. -/
theorem claim10_empty_roots (tr : List Event) (s' : StartState)
    (hr : StartReaches (startInit []) tr s') (hterm : Terminal s') :
    tr = [Event.close] :=
  start_empty hr hterm

theorem claim10_witness : ([Event.close] : List Event) = [Event.close] :=
  claim10_empty_roots [Event.close] ⟨[], 0, true⟩
    (StartReaches.step (StartStep.close (startInit []) rfl rfl)
      (StartReaches.refl _))
    (no_step_of_closed ⟨rfl, fun _ => rfl⟩ rfl)

end TZgrep
